import Mathlib

/-! # Dir View: the recursive filter and the sized file-system model

A shallow embedding of the two custom classes of `src/main.cpp`:

* `FileFilterProxyModel` (`filterAcceptsRow`, `recursiveFilterAcceptsRow`), a proxy that
  keeps a row when the row or one of the rows below it matches the filter expression;
* `CustomFileSystemModel` (`data`, `columnCount`, `headerData`, `calculateFolderSize`,
  `humanReadableSize`), a file-system model that shows a computed size text.

The Qt classes the two build on (`QSortFilterProxyModel`, `QFileSystemModel`, `QDir`,
`QRegularExpression`, `QString::number`) are not part of the repository. They enter either
as parameters or as small models of their documented behaviour, each marked as such.
-/

namespace DirView

/-! ## The source model as the filter proxy sees it -/

/-- A valid index of column 0 of the source model, with what the proxy reads through it:
`text` is `sourceModel()->data(index).toString()` and `rows` lists
`sourceModel()->index(i, 0, index)` for `i = 0, ..., rowCount(index) - 1`. -/
inductive ModelIndex where
  | node (text : String) (rows : List ModelIndex)

namespace ModelIndex

/-- The display text `sourceModel()->data(index).toString()`. -/
def text : ModelIndex → String
  | node t _ => t

/-- The children `sourceModel()->index(i, 0, index)`, in row order. -/
def rows : ModelIndex → List ModelIndex
  | node _ rs => rs

/-- The value of `sourceModel()->rowCount(index)`. -/
def rowCount (index : ModelIndex) : Nat := index.rows.length

end ModelIndex

mutual
/-- The method `FileFilterProxyModel::recursiveFilterAcceptsRow`. The argument `contains`
stands for `text.contains(filterRegularExpression())`, the search of the current filter
expression in a text. -/
def recursiveFilterAcceptsRow (contains : String → Bool) : ModelIndex → Bool
  | .node text rows =>
    if contains text then true
    else acceptsSomeRow contains rows
/-- The `for` loop of `recursiveFilterAcceptsRow` over the child rows that are still to be
visited: it returns `true` at the first accepted child and `false` when none is left. -/
def acceptsSomeRow (contains : String → Bool) : List ModelIndex → Bool
  | [] => false
  | child :: rest =>
    if recursiveFilterAcceptsRow contains child then true
    else acceptsSomeRow contains rest
end

/-- The method `FileFilterProxyModel::filterAcceptsRow` for a valid parent: the index of
`source_row` under `source_parent` is looked up and handed to `recursiveFilterAcceptsRow`.
`none` stands for a row number outside `0 .. rowCount - 1`, which the view never asks for. -/
def filterAcceptsRow (contains : String → Bool) (source_row : Nat)
    (source_parent : ModelIndex) : Option Bool :=
  (source_parent.rows.get? source_row).map (recursiveFilterAcceptsRow contains)

/-- Modelled from the spec: the filter pattern is "a single case-insensitive
substring/regular-expression pattern". The regular-expression engine belongs to Qt; this is
`text.contains(QRegularExpression(pattern, QRegularExpression::CaseInsensitiveOption))` for a
pattern without metacharacters: some stretch of `text` equals `pattern` up to the case of
the letters (ASCII letters here). -/
def containsCaseInsensitive (pattern text : String) : Bool :=
  decide (pattern.toList.map Char.toLower <:+: text.toList.map Char.toLower)

/-- The relation "`d` is a descendant of `r`, at any depth": `d` is a child row of `r`, or
a descendant of a child row of `r`. -/
inductive Descendant : ModelIndex → ModelIndex → Prop where
  | child {d r : ModelIndex} : d ∈ r.rows → Descendant d r
  | deeper {d c r : ModelIndex} : c ∈ r.rows → Descendant d c → Descendant d r

/-- The tree of the filter scenario: `a.txt` next to the folder `logs`, which holds `b.txt`. -/
def scenarioLogs : ModelIndex := .node "logs" [.node "b.txt" []]

/-- The row `a.txt` of the filter scenario. -/
def scenarioATxt : ModelIndex := .node "a.txt" []

/-! ## The file system as `QDir` and `QFileInfo` show it -/

/-- A file-system entry below the folder being measured.

* A file has the byte count that `QFileInfo::size()` reports. A file is a file entry of a
  folder, as the listings give it: a file with several hard links is several entries.
* A folder has its entries, the flag `readable`, which says whether listing it succeeds,
  and `ownSize`, the byte count that `QFileInfo::size()` reports for the folder itself.
* A symbolic link has the entry it resolves to. `QFileInfo::isDir()` and
  `QFileInfo::size()` follow a link, and neither listing of the source passes
  `QDir::NoSymLinks`, so a link to a folder is listed among the folders and a link to a
  file among the files. A link whose target is missing is in neither listing, as
  `QDir::System` is not passed, and is no entry of the tree. A cycle of links has no finite
  tree; the system stops resolving it after a fixed number of links, at a path that cannot
  be listed.

`hidden` is the hidden attribute that `QDir::Hidden` is about. The pseudo-entries `.` and
`..` are no entries of the tree: both listings of the source pass
`QDir::NoDotAndDotDot`. -/
inductive Entry where
  | file (name : String) (hidden : Bool) (size : Nat)
  | dir (name : String) (hidden : Bool) (readable : Bool) (ownSize : Nat)
      (entries : List Entry)
  | link (name : String) (hidden : Bool) (target : Entry)

namespace Entry

/-- The test `QFileInfo::isDir()`, which follows symbolic links. -/
def isDir : Entry → Bool
  | file _ _ _ => false
  | dir _ _ _ _ _ => true
  | link _ _ target => target.isDir

/-- The hidden attribute of the entry. -/
def isHidden : Entry → Bool
  | file _ h _ => h
  | dir _ h _ _ _ => h
  | link _ h _ => h

/-- The value of `QFileInfo::size()`, which follows symbolic links. -/
def size : Entry → Nat
  | file _ _ s => s
  | dir _ _ _ s _ => s
  | link _ _ target => target.size

/-- The name of the entry. -/
def name : Entry → String
  | file n _ _ => n
  | dir n _ _ _ _ => n
  | link n _ _ => n

/-- The folder, or the folder a link resolves to, can be listed; a file counts as
readable. -/
def isReadable : Entry → Bool
  | file _ _ _ => true
  | dir _ _ readable _ _ => readable
  | link _ _ target => target.isReadable

end Entry

/-- The call `QDir(path).entryInfoList(filters)` with `QDir::NoDotAndDotDot` set, for the
filter bits `QDir::Dirs`, `QDir::Files` and `QDir::Hidden`. Qt documents that the list is
empty when the folder cannot be read or does not exist; a path that names a file lists
nothing either, and the path of a link lists what the link resolves to. -/
def entryInfoList (dirs files hidden : Bool) : Entry → List Entry
  | .file _ _ _ => []
  | .dir _ _ readable _ entries =>
    if readable then
      entries.filter fun e => (if e.isDir then dirs else files) && (hidden || !e.isHidden)
    else []
  | .link _ _ target => entryInfoList dirs files hidden target

/-- The value a `qint64` holds after an arithmetic result `x`: the representative of `x`
modulo `2^64` in the range from `-2^63` to `2^63 - 1`. Signed overflow is undefined in C++;
the wrap-around of the target machine is what is modelled. -/
def wrapInt64 (x : Int) : Int := (x + 2 ^ 63) % 2 ^ 64 - 2 ^ 63

/-- The first loop of `calculateFolderSize`, run over the entries of the folder: every
file, hidden or not, adds `fileInfo.size()` to `size`; folders are no part of the listing
`QDir::Files | QDir::NoDotAndDotDot | QDir::Hidden`. -/
def addFileSizes : List Entry → Int → Int
  | [], size => size
  | e :: rest, size =>
    if e.isDir then addFileSizes rest size
    else addFileSizes rest (wrapInt64 (size + (e.size : Int)))

mutual
/-- The method `CustomFileSystemModel::calculateFolderSize`, for the folder that the path
names. A folder that cannot be listed gives two empty listings, so `size` stays 0; the
path of a link is listed as the folder the link resolves to. -/
def calculateFolderSize : Entry → Int
  | .file _ _ _ => 0
  | .dir _ _ readable _ entries =>
    if readable then addFolderSizes entries (addFileSizes entries 0) else 0
  | .link _ _ target => calculateFolderSize target
/-- The second loop of `calculateFolderSize`, run over the entries of the folder: every
subfolder, hidden or not, adds its own `calculateFolderSize` to `size`; files are no part
of the listing `QDir::Dirs | QDir::NoDotAndDotDot | QDir::Hidden`. -/
def addFolderSizes : List Entry → Int → Int
  | [], size => size
  | e :: rest, size =>
    if e.isDir then addFolderSizes rest (wrapInt64 (size + calculateFolderSize e))
    else addFolderSizes rest size
end

mutual
/-- The files that an entry is or holds, each once, in listing order. A symbolic link is
no file and holds none: what it points to is counted where it lies. -/
def filesAt : Entry → List Entry
  | .file n h s => [.file n h s]
  | .dir _ _ _ _ entries => filesAmong entries
  | .link _ _ _ => []
/-- The files among a list of entries and below the folders of the list. -/
def filesAmong : List Entry → List Entry
  | [] => []
  | e :: rest => filesAt e ++ filesAmong rest
end

/-- The files transitively contained in a folder, each once, in listing order. -/
def filesUnder : Entry → List Entry
  | .file _ _ _ => []
  | .dir _ _ _ _ entries => filesAmong entries
  | .link _ _ _ => []

/-- The sum of the byte sizes of every file transitively contained in a folder. -/
def totalFileBytes (e : Entry) : Nat := ((filesUnder e).map Entry.size).sum

mutual
/-- The byte sizes found at the paths that an entry of a listing stands for: the size of a
file; for a folder that can be listed, the sizes found at its entries, and nothing for one
that cannot; for a symbolic link, what is found at the entry it resolves to. -/
def sizesAt : Entry → List Nat
  | .file _ _ s => [s]
  | .dir _ _ readable _ entries => if readable then sizesAmong entries else []
  | .link _ _ target => sizesAt target
/-- The byte sizes found at the entries of a list, entry by entry. -/
def sizesAmong : List Entry → List Nat
  | [] => []
  | e :: rest => sizesAt e ++ sizesAmong rest
end

/-- The byte sizes of the files at every path below a folder that is reached through
folders that can be listed, a symbolic link standing for what it resolves to. -/
def reachableSizes : Entry → List Nat
  | .file _ _ _ => []
  | .dir _ _ readable _ entries => if readable then sizesAmong entries else []
  | .link _ _ target => reachableSizes target

mutual
/-- Every folder of the tree, the entry itself included, can be listed. -/
def allReadable : Entry → Bool
  | .file _ _ _ => true
  | .dir _ _ readable _ entries => readable && allReadableList entries
  | .link _ _ target => allReadable target
/-- Every folder among and below the entries of a list can be listed. -/
def allReadableList : List Entry → Bool
  | [] => true
  | e :: rest => allReadable e && allReadableList rest
end

mutual
/-- The tree holds no symbolic link. -/
def noLinks : Entry → Bool
  | .file _ _ _ => true
  | .dir _ _ _ _ entries => noLinksList entries
  | .link _ _ _ => false
/-- The entries of a list and the trees below them hold no symbolic link. -/
def noLinksList : List Entry → Bool
  | [] => true
  | e :: rest => noLinks e && noLinksList rest
end

/-- The byte sizes of the files directly among the entries of a list, summed. -/
def directFileBytes (entries : List Entry) : Nat :=
  ((entries.filter fun e => !e.isDir).map Entry.size).sum

/-- The byte sizes reached below the folders of a list, summed folder by folder. -/
def subfolderBytes (entries : List Entry) : Nat :=
  ((entries.filter fun e => e.isDir).map fun e => (reachableSizes e).sum).sum

/-- The folder of the hidden-entries example: a hidden file of 3 bytes and a hidden folder
with a file of 4 bytes. -/
def scenarioHidden : Entry :=
  .dir "home" false true 4096
    [.file ".profile" true 3, .dir ".cache" true true 4096 [.file "blob" false 4]]

/-- The folder of the permission example: the file `a` of 7 bytes next to the folder
`locked`, which cannot be listed and holds the file `secret` of 5 bytes. -/
def scenarioLocked : Entry :=
  .dir "top" false true 4096
    [.file "a" false 7, .dir "locked" false false 4096 [.file "secret" false 5]]

/-- The folder of the overflow example: two files of `2^62` bytes each. -/
def scenarioHuge : Entry :=
  .dir "huge" false true 4096 [.file "x" false (2 ^ 62), .file "y" false (2 ^ 62)]

/-- The folder of the links example: the folder `real` with the one file `f` of 10 bytes,
the link `dlink` to `real` and the link `flink` to `real/f`. -/
def scenarioLinks : Entry :=
  .dir "links" false true 4096
    [.dir "real" false true 4096 [.file "f" false 10],
     .link "dlink" false (.dir "real" false true 4096 [.file "f" false 10]),
     .link "flink" false (.file "f" false 10)]

/-! ## The size text -/

/-- A finite `double` as `humanReadableSize` computes with it: the value
`mant / 2^scale`, negated when `negative` is set. -/
structure Double where
  negative : Bool
  mant : Nat
  scale : Nat

/-- The number of low bits that do not fit the 53-bit significand of a `double`: how often
`n` is halved until it is below `2^53`. The magnitude of a `qint64` has at most 64 bits, so
at most 11 halvings are needed, which is the fuel `nearestDouble` passes. -/
def excessBits : Nat → Nat → Nat
  | 0, _ => 0
  | fuel + 1, n => if n < 2 ^ 53 then 0 else excessBits fuel (n / 2) + 1

/-- The magnitude of the `double` nearest to the integer `n`, the result of the conversion
`double readableSize = size`: the low bits that do not fit are rounded off, to the nearest
value, a tie going to the even significand. Integers below `2^53` are kept as they are. -/
def nearestDouble (n : Nat) : Nat :=
  let e := excessBits 11 n
  let q := n / 2 ^ e
  let r := n % 2 ^ e
  if 2 * r < 2 ^ e then q * 2 ^ e
  else if 2 ^ e < 2 * r then (q + 1) * 2 ^ e
  else (q + q % 2) * 2 ^ e

namespace Double

/-- The conversion of a `qint64` to `double`. -/
def ofInt64 (size : Int) : Double :=
  { negative := decide (size < 0), mant := nearestDouble size.natAbs, scale := 0 }

/-- The test `readableSize >= 1024.0`. -/
def ge1024 (x : Double) : Bool :=
  !x.negative && decide (1024 * 2 ^ x.scale ≤ x.mant)

/-- The step `readableSize /= 1024.0`. Dividing by a power of two only lowers the exponent
of a `double`, so the result is exact for the values the loop divides, which are at least
1024. -/
def div1024 (x : Double) : Double :=
  { x with scale := x.scale + 10 }

/-- The value times 100, rounded to the nearest integer, a tie going up. -/
def hundredths (x : Double) : Nat :=
  (200 * x.mant + 2 ^ x.scale) / (2 * 2 ^ x.scale)

end Double

/-- The text of a count of hundredths: the integer part, a dot, and exactly two decimal
digits. -/
def fixedTwoDecimals (h : Nat) : String :=
  Nat.repr (h / 100) ++ "." ++ Nat.repr (h % 100 / 10) ++ Nat.repr (h % 10)

/-- The call `QString::number(x, 'f', 2)`, modelled on Qt's documented behaviour: fixed
notation with two digits after the dot, the exact value of the `double` rounded to the
nearest hundredth, no group separators, a minus sign for a negative value. -/
def numberFixed2 (x : Double) : String :=
  (if x.negative then "-" else "") ++ fixedTwoDecimals x.hundredths

/-- The list `units` of `humanReadableSize`. -/
def units : List String := ["B", "KB", "MB", "GB", "TB"]

/-- The `while` loop of `humanReadableSize` on the pair `(readableSize, unitIndex)`. Each
turn raises `unitIndex`, which the loop condition keeps below `units.size() - 1`, so the
loop makes at most `units.size() - 1` turns; that number is the fuel passed. -/
def scaleLoop : Nat → Double → Nat → Double × Nat
  | 0, readableSize, unitIndex => (readableSize, unitIndex)
  | fuel + 1, readableSize, unitIndex =>
    if readableSize.ge1024 && decide (unitIndex < units.length - 1) then
      scaleLoop fuel readableSize.div1024 (unitIndex + 1)
    else (readableSize, unitIndex)

/-- The method `CustomFileSystemModel::humanReadableSize`. -/
def humanReadableSize (size : Int) : String :=
  let r := scaleLoop (units.length - 1) (Double.ofInt64 size) 0
  numberFixed2 r.1 ++ " " ++ units.getD r.2 ""

/-! ## The sized file-system model -/

/-- The values of `QVariant` that matter here: the invalid variant, a text, and any other
payload of the underlying model, kept as a tag. -/
inductive QVariant where
  | invalid
  | text (s : String)
  | other (tag : Nat)
  deriving DecidableEq

/-- The enumeration `Qt::Orientation`. -/
inductive Orientation where
  | Horizontal
  | Vertical
  deriving DecidableEq

/-- The number of an item data role; `Qt::DisplayRole` is 0. -/
abbrev Role := Nat

/-- The constant `Qt::DisplayRole`. -/
def DisplayRole : Role := 0

/-- A valid index of the file-system model: the entry of its row, which is what
`fileInfo(index)` reports on, and the number `index.column()`. -/
structure FileIndex where
  entry : Entry
  column : Nat

/-- The base class `QFileSystemModel`, whose methods the overrides fall back on. It is no
part of the repository and enters as a parameter. `none` as the parent of `columnCount` is
the invalid index `QModelIndex()`. -/
structure Provider where
  columnCount : Option FileIndex → Nat
  data : FileIndex → Role → QVariant
  headerData : Nat → Orientation → Role → QVariant

/-- The method `CustomFileSystemModel::data`. -/
def data (base : Provider) (index : FileIndex) (role : Role) : QVariant :=
  if role = DisplayRole ∧ index.column = 1 then
    if index.entry.isDir then
      .text (humanReadableSize (calculateFolderSize index.entry))
    else
      .text (humanReadableSize (index.entry.size : Int))
  else base.data index role

/-- The method `CustomFileSystemModel::columnCount`. -/
def columnCount (base : Provider) (parent : Option FileIndex) : Nat :=
  base.columnCount parent + 1

/-- The method `CustomFileSystemModel::headerData`. -/
def headerData (base : Provider) (section_ : Nat) (orientation : Orientation)
    (role : Role) : QVariant :=
  if role = DisplayRole ∧ orientation = Orientation.Horizontal then
    if section_ = 1 then .text "Размер"
    else base.headerData section_ orientation role
  else base.headerData section_ orientation role

/-- A stand-in for the underlying provider with the four native columns of
`QFileSystemModel` (0 name, 1 size, 2 type, 3 date modified), to run the model on concrete
rows. The name column carries the entry's name; the native size cell of a folder is the
empty text; the other native cells carry short fixed texts; past the native columns there
is no value. -/
def sampleProvider : Provider where
  columnCount := fun _ => 4
  data := fun index role =>
    if role = DisplayRole then
      match index.column with
      | 0 => .text index.entry.name
      | 1 => .text (if index.entry.isDir then "" else Nat.repr index.entry.size ++ " bytes")
      | 2 => .text (if index.entry.isDir then "Folder" else "File")
      | 3 => .text "2024-01-01 00:00"
      | _ => .invalid
    else .other role
  headerData := fun section_ orientation role =>
    if role = DisplayRole ∧ orientation = Orientation.Horizontal then
      match section_ with
      | 0 => .text "Name"
      | 1 => .text "Size"
      | 2 => .text "Type"
      | 3 => .text "Date Modified"
      | _ => .invalid
    else .other role

/-- The folder `A` of the size scenario: the file `f1` of 100 bytes and the subfolder `B`
with the file `f2` of 924 bytes. -/
def scenarioA : Entry :=
  .dir "A" false true 4096
    [.file "f1" false 100, .dir "B" false true 4096 [.file "f2" false 924]]

/-! ## Properties of the recursive filter -/

/-- The loop over the child rows succeeds exactly when some child row is accepted. -/
theorem acceptsSomeRow_iff (contains : String → Bool) (rows : List ModelIndex) :
    acceptsSomeRow contains rows = true ↔
      ∃ c, c ∈ rows ∧ recursiveFilterAcceptsRow contains c = true := by
  induction rows with
  | nil => simp [acceptsSomeRow]
  | cons child rest ih =>
    simp only [acceptsSomeRow, List.mem_cons]
    cases hc : recursiveFilterAcceptsRow contains child with
    | true =>
      simp only [if_true, true_iff]
      exact ⟨child, Or.inl rfl, hc⟩
    | false =>
      simp only [Bool.false_eq_true, if_false, ih]
      constructor
      · rintro ⟨c, hmem, hacc⟩
        exact ⟨c, Or.inr hmem, hacc⟩
      · rintro ⟨c, hmem | hmem, hacc⟩
        · rw [hmem, hc] at hacc
          exact absurd hacc (by decide)
        · exact ⟨c, hmem, hacc⟩

/-- One step of the recursion: a row is accepted when its text matches or a child row is
accepted. -/
theorem recursiveFilterAcceptsRow_step (contains : String → Bool) (r : ModelIndex) :
    recursiveFilterAcceptsRow contains r = true ↔
      contains r.text = true ∨
        ∃ c, c ∈ r.rows ∧ recursiveFilterAcceptsRow contains c = true := by
  cases r with
  | node text rows =>
    simp only [recursiveFilterAcceptsRow, ModelIndex.text, ModelIndex.rows]
    cases ht : contains text with
    | true => simp
    | false =>
      simp only [Bool.false_eq_true, if_false, false_or]
      exact acceptsSomeRow_iff contains rows

/-- An accepted descendant makes the row accepted. -/
theorem accepts_of_descendant (contains : String → Bool) {d r : ModelIndex}
    (hd : Descendant d r) :
    recursiveFilterAcceptsRow contains d = true →
      recursiveFilterAcceptsRow contains r = true := by
  induction hd with
  | child hmem =>
    intro hacc
    exact (recursiveFilterAcceptsRow_step contains _).mpr (Or.inr ⟨_, hmem, hacc⟩)
  | deeper hmem _ ih =>
    intro hacc
    exact (recursiveFilterAcceptsRow_step contains _).mpr (Or.inr ⟨_, hmem, ih hacc⟩)

/-- A child row is smaller than its parent, the measure of the recursion over rows. -/
theorem sizeOf_lt_of_mem_rows {c r : ModelIndex} (hmem : c ∈ r.rows) :
    sizeOf c < sizeOf r := by
  cases r with
  | node text rows =>
    have h := List.sizeOf_lt_of_mem hmem
    simp only [ModelIndex.rows] at h
    simp only [ModelIndex.node.sizeOf_spec]
    omega

/-- An accepted row has a matching text, or a descendant with a matching text. -/
theorem matching_of_accepts (contains : String → Bool) (r : ModelIndex)
    (hacc : recursiveFilterAcceptsRow contains r = true) :
    contains r.text = true ∨ ∃ d, Descendant d r ∧ contains d.text = true := by
  rcases (recursiveFilterAcceptsRow_step contains r).mp hacc with h | ⟨c, hmem, hc⟩
  · exact Or.inl h
  · right
    have _hlt : sizeOf c < sizeOf r := sizeOf_lt_of_mem_rows hmem
    rcases matching_of_accepts contains c hc with h | ⟨d, hd, hm⟩
    · exact ⟨c, Descendant.child hmem, h⟩
    · exact ⟨d, Descendant.deeper hmem hd, hm⟩
termination_by sizeOf r

/-- Claim C1. For every filter expression and every row of a finite tree,
`recursiveFilterAcceptsRow` accepts the row exactly when the row's own text matches or the
text of a descendant, at any depth, matches. With the pattern "log" matched without regard
to case, the folder `logs` holding `b.txt` is accepted and `a.txt` is not; the pattern "LOG"
accepts `logs` as well. -/
theorem recursiveFilterAcceptsRow_iff_self_or_descendant :
    (∀ (contains : String → Bool) (r : ModelIndex),
      recursiveFilterAcceptsRow contains r = true ↔
        (contains r.text = true ∨ ∃ d, Descendant d r ∧ contains d.text = true)) ∧
    recursiveFilterAcceptsRow (containsCaseInsensitive "log") scenarioLogs = true ∧
    recursiveFilterAcceptsRow (containsCaseInsensitive "log") scenarioATxt = false ∧
    recursiveFilterAcceptsRow (containsCaseInsensitive "LOG") scenarioLogs = true := by
  refine ⟨fun contains r => ⟨matching_of_accepts contains r, ?_⟩, by decide, by decide,
    by decide⟩
  rintro (h | ⟨d, hd, hm⟩)
  · exact (recursiveFilterAcceptsRow_step contains r).mpr (Or.inl h)
  · exact accepts_of_descendant contains hd
      ((recursiveFilterAcceptsRow_step contains d).mpr (Or.inl hm))

/-- Claim C7. A filter expression that is found in every text, as the empty pattern is,
makes `recursiveFilterAcceptsRow` accept every row of every tree, whatever the row's text
and whether or not it has child rows. -/
theorem recursiveFilterAcceptsRow_empty_pattern :
    (∀ contains : String → Bool, (∀ text, contains text = true) →
      ∀ r : ModelIndex, recursiveFilterAcceptsRow contains r = true) ∧
    (∀ text : String, containsCaseInsensitive "" text = true) ∧
    (∀ r : ModelIndex, recursiveFilterAcceptsRow (containsCaseInsensitive "") r = true) := by
  have hempty : ∀ text : String, containsCaseInsensitive "" text = true := by
    intro text
    simp [containsCaseInsensitive]
  have hall : ∀ contains : String → Bool, (∀ text, contains text = true) →
      ∀ r : ModelIndex, recursiveFilterAcceptsRow contains r = true :=
    fun contains h r => (recursiveFilterAcceptsRow_step contains r).mpr (Or.inl (h r.text))
  exact ⟨hall, hempty, hall _ hempty⟩

/-- Instance of claim C7: under the empty pattern the childless row `a.txt` and the folder
`logs` are both accepted. -/
theorem recursiveFilterAcceptsRow_empty_pattern_witness :
    recursiveFilterAcceptsRow (containsCaseInsensitive "") scenarioATxt = true ∧
    recursiveFilterAcceptsRow (containsCaseInsensitive "") scenarioLogs = true :=
  ⟨recursiveFilterAcceptsRow_empty_pattern.2.2 scenarioATxt,
   recursiveFilterAcceptsRow_empty_pattern.2.2 scenarioLogs⟩

/-- Claim C10. Acceptance is closed upwards: when a row is accepted, so is its parent, and
so is every row it descends from. -/
theorem recursiveFilterAcceptsRow_upward_closed (contains : String → Bool)
    (c p : ModelIndex) (hacc : recursiveFilterAcceptsRow contains c = true) :
    (c ∈ p.rows → recursiveFilterAcceptsRow contains p = true) ∧
    (Descendant c p → recursiveFilterAcceptsRow contains p = true) :=
  ⟨fun hmem => accepts_of_descendant contains (Descendant.child hmem) hacc,
   fun hd => accepts_of_descendant contains hd hacc⟩

/-- Instance of claim C10: `b.txt` matches "txt", so the folder `logs` above it is
accepted both as its parent and as an ancestor. -/
theorem recursiveFilterAcceptsRow_upward_closed_witness :
    recursiveFilterAcceptsRow (containsCaseInsensitive "txt") (.node "b.txt" []) = true ∧
    (.node "b.txt" [] : ModelIndex) ∈ scenarioLogs.rows ∧
    recursiveFilterAcceptsRow (containsCaseInsensitive "txt") scenarioLogs = true :=
  ⟨by decide, by simp [scenarioLogs, ModelIndex.rows],
   (recursiveFilterAcceptsRow_upward_closed (containsCaseInsensitive "txt")
      (.node "b.txt" []) scenarioLogs (by decide)).1
      (by simp [scenarioLogs, ModelIndex.rows])⟩

/-! ## Properties of the folder size -/

/-- Inside the range of `qint64` nothing wraps. -/
theorem wrapInt64_eq_self {x : Int} (h0 : -(2 ^ 63) ≤ x) (h1 : x < 2 ^ 63) :
    wrapInt64 x = x := by
  unfold wrapInt64
  omega

/-- A wrapped value lies in the range of `qint64`. -/
theorem wrapInt64_range (x : Int) : -(2 ^ 63) ≤ wrapInt64 x ∧ wrapInt64 x < 2 ^ 63 := by
  unfold wrapInt64
  omega

/-- Wrapping after each addition gives what wrapping once at the end gives. -/
theorem wrapInt64_add_left (a b : Int) :
    wrapInt64 (wrapInt64 a + b) = wrapInt64 (a + b) := by
  unfold wrapInt64
  omega

/-- Wrapping after each addition gives what wrapping once at the end gives. -/
theorem wrapInt64_add_right (a b : Int) :
    wrapInt64 (a + wrapInt64 b) = wrapInt64 (a + b) := by
  unfold wrapInt64
  omega

/-- The first loop is the accumulation of `fileInfo.size()` over the listing of files. -/
theorem addFileSizes_eq_foldl (es : List Entry) (size : Int) :
    addFileSizes es size =
      (es.filter fun e => !e.isDir).foldl (fun s f => wrapInt64 (s + (f.size : Int))) size := by
  induction es generalizing size with
  | nil => rfl
  | cons e rest ih =>
    cases he : e.isDir <;> simp [addFileSizes, he, ih]

/-- The second loop is the accumulation of the recursive call over the listing of folders. -/
theorem addFolderSizes_eq_foldl (es : List Entry) (size : Int) :
    addFolderSizes es size =
      (es.filter fun e => e.isDir).foldl
        (fun s d => wrapInt64 (s + calculateFolderSize d)) size := by
  induction es generalizing size with
  | nil => simp [addFolderSizes]
  | cons e rest ih =>
    cases he : e.isDir <;> simp [addFolderSizes, he, ih]

/-- The body of `calculateFolderSize` as the source writes it: `size` starts at 0, the
loop over the listing of files adds each `fileInfo.size()`, the loop over the listing of
folders adds each recursive result. -/
theorem calculateFolderSize_unfold : ∀ d : Entry,
    calculateFolderSize d =
      (entryInfoList true false true d).foldl
        (fun s sub => wrapInt64 (s + calculateFolderSize sub))
        ((entryInfoList false true true d).foldl
          (fun s f => wrapInt64 (s + (f.size : Int))) 0)
  | .file n h sz => by simp [calculateFolderSize, entryInfoList]
  | .dir n h false sz es => by simp [calculateFolderSize, entryInfoList]
  | .dir n h true sz es => by
    simp only [calculateFolderSize, if_true, addFolderSizes_eq_foldl,
      addFileSizes_eq_foldl, entryInfoList]
    simp
  | .link n h target => by
    simp only [calculateFolderSize, entryInfoList]
    exact calculateFolderSize_unfold target

/-- An entry of a listing that is no folder stands for one file size. -/
theorem sizesAt_of_not_isDir : ∀ e : Entry, e.isDir = false → sizesAt e = [e.size]
  | .file n h s => fun _ => by simp [sizesAt, Entry.size]
  | .dir n h r s es => fun hd => by simp [Entry.isDir] at hd
  | .link n h target => fun hd => by
    simp only [Entry.isDir] at hd
    simp only [sizesAt, Entry.size]
    exact sizesAt_of_not_isDir target hd

/-- An entry of a listing that is a folder stands for what is reached below it. -/
theorem sizesAt_of_isDir : ∀ e : Entry, e.isDir = true → sizesAt e = reachableSizes e
  | .file n h s => fun hd => by simp [Entry.isDir] at hd
  | .dir n h r s es => fun _ => by simp [sizesAt, reachableSizes]
  | .link n h target => fun hd => by
    simp only [Entry.isDir] at hd
    simp only [sizesAt, reachableSizes]
    exact sizesAt_of_isDir target hd

/-- What is reached through a list of entries splits into the files of the list and what
is reached below its folders. -/
theorem sum_sizesAmong (es : List Entry) :
    (sizesAmong es).sum = directFileBytes es + subfolderBytes es := by
  induction es with
  | nil => simp [sizesAmong, directFileBytes, subfolderBytes]
  | cons e rest ih =>
    simp only [directFileBytes, subfolderBytes] at ih
    cases he : e.isDir with
    | false =>
      simp [sizesAmong, directFileBytes, subfolderBytes, he, ih, sizesAt_of_not_isDir e he]
      omega
    | true =>
      simp [sizesAmong, directFileBytes, subfolderBytes, he, ih, sizesAt_of_isDir e he]
      omega

/-- The first loop keeps `size` in the range of `qint64`. -/
theorem addFileSizes_range (es : List Entry) (size : Int)
    (h : -(2 ^ 63) ≤ size ∧ size < 2 ^ 63) :
    -(2 ^ 63) ≤ addFileSizes es size ∧ addFileSizes es size < 2 ^ 63 := by
  induction es generalizing size with
  | nil => simpa [addFileSizes] using h
  | cons e rest ih =>
    cases he : e.isDir with
    | true => simpa [addFileSizes, he] using ih size h
    | false => simpa [addFileSizes, he] using ih _ (wrapInt64_range _)

/-- The second loop keeps `size` in the range of `qint64`. -/
theorem addFolderSizes_range (es : List Entry) (size : Int)
    (h : -(2 ^ 63) ≤ size ∧ size < 2 ^ 63) :
    -(2 ^ 63) ≤ addFolderSizes es size ∧ addFolderSizes es size < 2 ^ 63 := by
  induction es generalizing size with
  | nil => simpa [addFolderSizes] using h
  | cons e rest ih =>
    cases he : e.isDir with
    | true => simpa [addFolderSizes, he] using ih _ (wrapInt64_range _)
    | false => simpa [addFolderSizes, he] using ih size h

/-- The first loop adds the sizes of the files of the list to `size`, as a `qint64`. -/
theorem addFileSizes_wrap (es : List Entry) (size : Int) :
    wrapInt64 (addFileSizes es size) = wrapInt64 (size + (directFileBytes es : Int)) := by
  induction es generalizing size with
  | nil => simp [addFileSizes, directFileBytes]
  | cons e rest ih =>
    cases he : e.isDir with
    | true =>
      have hd : directFileBytes (e :: rest) = directFileBytes rest := by
        simp [directFileBytes, he]
      rw [hd]
      simp only [addFileSizes, he, if_true]
      exact ih size
    | false =>
      have hd : directFileBytes (e :: rest) = e.size + directFileBytes rest := by
        simp [directFileBytes, he]
      rw [hd]
      simp only [addFileSizes, he, Bool.false_eq_true, if_false]
      rw [ih, wrapInt64_add_left]
      push_cast
      rw [add_assoc]

/-- The second loop adds what is reached below the folders of the list to `size`, as a
`qint64`, when each recursive call returns what is reached below its folder. -/
theorem addFolderSizes_wrap (es : List Entry) (size : Int)
    (hrec : ∀ e, e ∈ es → e.isDir = true →
      calculateFolderSize e = wrapInt64 (((reachableSizes e).sum : Nat) : Int)) :
    wrapInt64 (addFolderSizes es size) = wrapInt64 (size + (subfolderBytes es : Int)) := by
  induction es generalizing size with
  | nil => simp [addFolderSizes, subfolderBytes]
  | cons e rest ih =>
    have hrest : ∀ e', e' ∈ rest → e'.isDir = true →
        calculateFolderSize e' = wrapInt64 (((reachableSizes e').sum : Nat) : Int) :=
      fun e' hm => hrec e' (List.mem_cons_of_mem _ hm)
    cases he : e.isDir with
    | false =>
      have hd : subfolderBytes (e :: rest) = subfolderBytes rest := by
        simp [subfolderBytes, he]
      rw [hd]
      simp only [addFolderSizes, he, Bool.false_eq_true, if_false]
      exact ih size hrest
    | true =>
      have hd : subfolderBytes (e :: rest) =
          (reachableSizes e).sum + subfolderBytes rest := by
        simp [subfolderBytes, he]
      rw [hd]
      simp only [addFolderSizes, he, if_true]
      rw [ih _ hrest, wrapInt64_add_left, hrec e (List.mem_cons_self _ _) he]
      unfold wrapInt64
      push_cast
      omega

/-- An entry of a folder is smaller than the folder, the measure of the recursion. -/
theorem sizeOf_lt_of_mem_entries {e : Entry} {n : String} {h r : Bool} {s : Nat}
    {es : List Entry} (hmem : e ∈ es) : sizeOf e < sizeOf (Entry.dir n h r s es) := by
  have hlt := List.sizeOf_lt_of_mem hmem
  simp only [Entry.dir.sizeOf_spec]
  omega

/-- The result of `calculateFolderSize`, for every tree: the sum, as a `qint64`, of the
sizes of the files at every path that is reached through folders that can be listed. -/
theorem calculateFolderSize_eq_wrap_sum (d : Entry) :
    calculateFolderSize d = wrapInt64 (((reachableSizes d).sum : Nat) : Int) := by
  cases d with
  | file n h sz =>
    simp only [calculateFolderSize, reachableSizes, List.sum_nil]
    decide
  | link n h target =>
    have _hlt : sizeOf target < sizeOf (Entry.link n h target) := by
      simp only [Entry.link.sizeOf_spec]
      omega
    simp only [calculateFolderSize, reachableSizes]
    exact calculateFolderSize_eq_wrap_sum target
  | dir n h r sz es =>
    cases r with
    | false =>
      simp only [calculateFolderSize, reachableSizes, Bool.false_eq_true, if_false,
        List.sum_nil]
      decide
    | true =>
      have hrec : ∀ e, e ∈ es → e.isDir = true →
          calculateFolderSize e = wrapInt64 (((reachableSizes e).sum : Nat) : Int) := by
        intro e hmem _
        have _hlt : sizeOf e < sizeOf (Entry.dir n h true sz es) :=
          sizeOf_lt_of_mem_entries hmem
        exact calculateFolderSize_eq_wrap_sum e
      have hrange := addFolderSizes_range es (addFileSizes es 0)
        (addFileSizes_range es 0 (by omega))
      simp only [calculateFolderSize, reachableSizes, if_true]
      rw [← wrapInt64_eq_self hrange.1 hrange.2, addFolderSizes_wrap es _ hrec,
        ← wrapInt64_eq_self (addFileSizes_range es 0 (by omega)).1
          (addFileSizes_range es 0 (by omega)).2,
        addFileSizes_wrap, wrapInt64_add_left, sum_sizesAmong]
      push_cast
      rw [zero_add]
termination_by sizeOf d

/-- In a list without links whose folders can all be listed, the sizes reached are the
sizes of the files that lie there, when that holds for each entry of the list. -/
theorem sizesAmong_eq_filesAmong (es : List Entry)
    (hrec : ∀ e, e ∈ es → noLinks e = true → allReadable e = true →
      sizesAt e = (filesAt e).map Entry.size)
    (hlinks : noLinksList es = true) (hread : allReadableList es = true) :
    sizesAmong es = (filesAmong es).map Entry.size := by
  induction es with
  | nil => simp [sizesAmong, filesAmong]
  | cons e rest ih =>
    simp only [noLinksList, Bool.and_eq_true] at hlinks
    simp only [allReadableList, Bool.and_eq_true] at hread
    simp only [sizesAmong, filesAmong, List.map_append]
    rw [hrec e (List.mem_cons_self _ _) hlinks.1 hread.1,
      ih (fun e' hm => hrec e' (List.mem_cons_of_mem _ hm)) hlinks.2 hread.2]

/-- In a tree without links whose folders can all be listed, the sizes reached at an entry
are the sizes of the files that lie there. -/
theorem sizesAt_eq_filesAt (e : Entry) (hlinks : noLinks e = true)
    (hread : allReadable e = true) : sizesAt e = (filesAt e).map Entry.size := by
  cases e with
  | file n h s => simp [sizesAt, filesAt, Entry.size]
  | link n h target => simp [noLinks] at hlinks
  | dir n h r s es =>
    simp only [noLinks] at hlinks
    simp only [allReadable, Bool.and_eq_true] at hread
    simp only [sizesAt, filesAt, hread.1, if_true]
    refine sizesAmong_eq_filesAmong es (fun e hmem hl hr => ?_) hlinks hread.2
    have _hlt : sizeOf e < sizeOf (Entry.dir n h r s es) := sizeOf_lt_of_mem_entries hmem
    exact sizesAt_eq_filesAt e hl hr
termination_by sizeOf e

/-- In a tree without links whose folders can all be listed, the sizes reached below a
folder are the sizes of the files transitively contained in it. -/
theorem reachableSizes_eq_filesUnder (d : Entry) (hlinks : noLinks d = true)
    (hread : allReadable d = true) :
    reachableSizes d = (filesUnder d).map Entry.size := by
  cases d with
  | file n h s => simp [reachableSizes, filesUnder]
  | link n h target => simp [noLinks] at hlinks
  | dir n h r s es =>
    simp only [noLinks] at hlinks
    simp only [allReadable, Bool.and_eq_true] at hread
    simp only [reachableSizes, filesUnder, hread.1, if_true]
    exact sizesAmong_eq_filesAmong es
      (fun e _ hl hr => sizesAt_eq_filesAt e hl hr) hlinks hread.2

/-- Claim C2, as the code has it. For every folder tree that holds no symbolic link, whose
folders can all be listed and whose file sizes add up to less than `2^63`, the range of the
`qint64` result, `calculateFolderSize` returns the sum of the byte sizes of every file
transitively contained in the folder, hidden files included, at any depth, each file once;
what a folder reports as its own size is no part of the sum. -/
theorem calculateFolderSize_eq_totalFileBytes (d : Entry) (hlinks : noLinks d = true)
    (hread : allReadable d = true) (hfit : totalFileBytes d < 2 ^ 63) :
    calculateFolderSize d = (totalFileBytes d : Int) := by
  rw [calculateFolderSize_eq_wrap_sum, reachableSizes_eq_filesUnder d hlinks hread]
  have hfit' : ((totalFileBytes d : Nat) : Int) < 2 ^ 63 := by exact_mod_cast hfit
  unfold totalFileBytes at hfit' ⊢
  exact wrapInt64_eq_self (by omega) hfit'

set_option maxRecDepth 4096 in
/-- Instance of claim C2: folder `A` with `f1` of 100 bytes and, one level down in `B`,
`f2` of 924 bytes has the size 1024, though each folder reports 4096 bytes for itself; a
hidden file of 3 bytes and a file of 4 bytes in a hidden folder are counted, giving 7. -/
theorem calculateFolderSize_eq_totalFileBytes_witness :
    noLinks scenarioA = true ∧ allReadable scenarioA = true ∧
    totalFileBytes scenarioA < 2 ^ 63 ∧
    totalFileBytes scenarioA = 1024 ∧ calculateFolderSize scenarioA = 1024 ∧
    calculateFolderSize scenarioHidden = 7 :=
  ⟨by decide, by decide, by decide, by decide,
   (calculateFolderSize_eq_totalFileBytes scenarioA (by decide) (by decide)
      (by decide)).trans (by decide),
   (calculateFolderSize_eq_totalFileBytes scenarioHidden (by decide) (by decide)
      (by decide)).trans (by decide)⟩

set_option maxRecDepth 4096 in
/-- Against claim C2 as stated. A subfolder that cannot be listed leaves its files out of
the result; a sum of `2^63` bytes is more than the `qint64` result can hold; and a file
that is also reached through symbolic links is counted once for each path: the one file of
10 bytes, reached as `real/f`, as `dlink/f` and as `flink`, gives 30. -/
theorem calculateFolderSize_ne_totalFileBytes :
    (calculateFolderSize scenarioLocked = 7 ∧ totalFileBytes scenarioLocked = 12) ∧
    (allReadable scenarioHuge = true ∧ noLinks scenarioHuge = true ∧
      totalFileBytes scenarioHuge = 2 ^ 63 ∧
      calculateFolderSize scenarioHuge = -(2 ^ 63)) ∧
    (allReadable scenarioLinks = true ∧ (filesUnder scenarioLinks).length = 1 ∧
      totalFileBytes scenarioLinks = 10 ∧ calculateFolderSize scenarioLinks = 30) := by
  refine ⟨⟨by decide, by decide⟩, ⟨by decide, by decide, by decide, by decide⟩,
    by decide, by decide, by decide, by decide⟩

/-- What is reached through a list is what is reached through its two stretches. -/
theorem sizesAmong_append (pre post : List Entry) :
    sizesAmong (pre ++ post) = sizesAmong pre ++ sizesAmong post := by
  induction pre with
  | nil => simp [sizesAmong]
  | cons e rest ih => simp [sizesAmong, ih]

/-- Nothing is reached at a folder that cannot be listed. -/
theorem sizesAt_unreadable : ∀ e : Entry, e.isDir = true → e.isReadable = false →
    sizesAt e = []
  | .file n h s => fun hd _ => by simp [Entry.isDir] at hd
  | .dir n h r s es => fun _ hr => by
    simp only [Entry.isReadable] at hr
    simp [sizesAt, hr]
  | .link n h target => fun hd hr => by
    simp only [Entry.isDir] at hd
    simp only [Entry.isReadable] at hr
    simp only [sizesAt]
    exact sizesAt_unreadable target hd hr

/-- Nothing is reached through a list of folders that cannot be listed. -/
theorem sizesAmong_all_unreadable (es : List Entry)
    (hes : ∀ e, e ∈ es → e.isDir = true ∧ e.isReadable = false) : sizesAmong es = [] := by
  induction es with
  | nil => rfl
  | cons e rest ih =>
    obtain ⟨hd, hr⟩ := hes e (List.mem_cons_self _ _)
    simp [sizesAmong, sizesAt_unreadable e hd hr,
      ih fun e' hm => hes e' (List.mem_cons_of_mem _ hm)]

/-- Claim C8. `calculateFolderSize` is a total function, and for every tree, folders that
cannot be listed included, its result is the sum, held in a `qint64`, of the sizes of the
files at all the paths that are reached through folders that can be listed: the sum
itself when that is below `2^63`. A folder that cannot be listed yields empty listings and
the size 0, whatever it holds; as a subfolder it adds nothing to what is reached below its
parent, whose result is the one it has without that subfolder; and a folder whose entries
are all folders that cannot be listed, an empty folder included, has the size 0 and the
size text "0.00 B". -/
theorem calculateFolderSize_unreadable :
    (∀ d : Entry, calculateFolderSize d = wrapInt64 (((reachableSizes d).sum : Nat) : Int)) ∧
    (∀ d : Entry, (reachableSizes d).sum < 2 ^ 63 →
      calculateFolderSize d = (((reachableSizes d).sum : Nat) : Int)) ∧
    (∀ (n : String) (h : Bool) (sz : Nat) (es : List Entry) (dirs files hidden : Bool),
      entryInfoList dirs files hidden (.dir n h false sz es) = [] ∧
      reachableSizes (.dir n h false sz es) = [] ∧
      calculateFolderSize (.dir n h false sz es) = 0) ∧
    (∀ (n n' : String) (h h' : Bool) (sz sz' : Nat) (pre post sub : List Entry),
      reachableSizes (.dir n h true sz (pre ++ .dir n' h' false sz' sub :: post)) =
        reachableSizes (.dir n h true sz (pre ++ post)) ∧
      calculateFolderSize (.dir n h true sz (pre ++ .dir n' h' false sz' sub :: post)) =
        calculateFolderSize (.dir n h true sz (pre ++ post))) ∧
    (∀ (base : Provider) (n : String) (h r : Bool) (sz : Nat) (es : List Entry),
      (∀ e, e ∈ es → e.isDir = true ∧ e.isReadable = false) →
        calculateFolderSize (.dir n h r sz es) = 0 ∧
        humanReadableSize (calculateFolderSize (.dir n h r sz es)) = "0.00 B" ∧
        data base ⟨.dir n h r sz es, 1⟩ DisplayRole = .text "0.00 B") := by
  have hzero : wrapInt64 ((0 : Nat) : Int) = 0 := by decide
  refine ⟨calculateFolderSize_eq_wrap_sum, fun d hfit => ?_,
    fun n h sz es dirs files hidden => ⟨by simp [entryInfoList], by simp [reachableSizes],
      by simp [calculateFolderSize]⟩, ?_, ?_⟩
  · rw [calculateFolderSize_eq_wrap_sum]
    have hfit' : (((reachableSizes d).sum : Nat) : Int) < 2 ^ 63 := by exact_mod_cast hfit
    exact wrapInt64_eq_self (by omega) hfit'
  · intro n n' h h' sz sz' pre post sub
    have hreach : reachableSizes (.dir n h true sz (pre ++ .dir n' h' false sz' sub :: post)) =
        reachableSizes (.dir n h true sz (pre ++ post)) := by
      simp [reachableSizes, sizesAmong_append, sizesAmong, sizesAt]
    refine ⟨hreach, ?_⟩
    rw [calculateFolderSize_eq_wrap_sum, calculateFolderSize_eq_wrap_sum, hreach]
  · intro base n h r sz es hes
    have hcalc : calculateFolderSize (.dir n h r sz es) = 0 := by
      rw [calculateFolderSize_eq_wrap_sum]
      cases r with
      | false => simpa [reachableSizes] using hzero
      | true => simpa [reachableSizes, sizesAmong_all_unreadable es hes] using hzero
    have htext : humanReadableSize 0 = "0.00 B" := by decide
    refine ⟨hcalc, ?_, ?_⟩
    · rw [hcalc, htext]
    · simp [data, Entry.isDir, hcalc, htext]

set_option maxRecDepth 4096 in
/-- Instance of claim C8: the folder `locked` cannot be listed, so its file of 5 bytes is
left out and `top` has the 7 bytes of its own file; folder `A` has the 100 bytes of its
own file and the 924 bytes one level down; an empty folder shows "0.00 B". -/
theorem calculateFolderSize_unreadable_witness :
    reachableSizes scenarioLocked = [7] ∧
    calculateFolderSize scenarioLocked = 7 ∧
    calculateFolderSize scenarioA = 1024 ∧
    calculateFolderSize (.dir "empty" false true 4096 []) = 0 ∧
    data sampleProvider ⟨.dir "empty" false true 4096 [], 1⟩ DisplayRole = .text "0.00 B" :=
  ⟨by decide,
   (calculateFolderSize_unreadable.2.1 scenarioLocked (by decide)).trans (by decide),
   (calculateFolderSize_unreadable.2.1 scenarioA (by decide)).trans (by decide),
   (calculateFolderSize_unreadable.2.2.2.2 sampleProvider "empty" false true 4096 []
      (fun _ hm => absurd hm (List.not_mem_nil _))).1,
   (calculateFolderSize_unreadable.2.2.2.2 sampleProvider "empty" false true 4096 []
      (fun _ hm => absurd hm (List.not_mem_nil _))).2.2⟩

/-! ## Properties of the size text -/

/-- An integer below `2^53` is a `double` as it is. -/
theorem nearestDouble_eq_self {n : Nat} (h : n < 2 ^ 53) : nearestDouble n = n := by
  have he : excessBits 11 n = 0 := by rw [excessBits, if_pos h]
  simp [nearestDouble, he, Nat.mod_one]

/-- What `excessBits` leaves fits 53 bits, and, when bits were dropped, fills them. -/
theorem excessBits_spec (fuel n : Nat) (h : n < 2 ^ (53 + fuel)) :
    n / 2 ^ excessBits fuel n < 2 ^ 53 ∧
      (excessBits fuel n = 0 ∨ 2 ^ 52 ≤ n / 2 ^ excessBits fuel n) := by
  induction fuel generalizing n with
  | zero => simpa [excessBits] using h
  | succ fuel ih =>
    by_cases hn : n < 2 ^ 53
    · have he : excessBits (fuel + 1) n = 0 := by rw [excessBits, if_pos hn]
      rw [he]
      exact ⟨by simpa using hn, Or.inl rfl⟩
    · have hhalf : n / 2 < 2 ^ (53 + fuel) := by
        have : 2 ^ (53 + (fuel + 1)) = 2 * 2 ^ (53 + fuel) := by ring
        omega
      have hdiv : n / 2 ^ (excessBits fuel (n / 2) + 1) =
          n / 2 / 2 ^ excessBits fuel (n / 2) := by
        rw [pow_succ, mul_comm, Nat.div_div_eq_div_mul]
      obtain ⟨h1, h2⟩ := ih (n / 2) hhalf
      have he : excessBits (fuel + 1) n = excessBits fuel (n / 2) + 1 := by
        rw [excessBits, if_neg hn]
      rw [he, hdiv]
      refine ⟨h1, Or.inr ?_⟩
      rcases h2 with h0 | h2
      · rw [h0]
        simp only [pow_zero, Nat.div_one]
        omega
      · exact h2

/-- The conversion to `double` moves an integer below `2^63` by at most 512, and keeps an
integer of at least `2^53` at or above `2^53`. -/
theorem nearestDouble_near {n : Nat} (h : n < 2 ^ 63) :
    nearestDouble n ≤ n + 512 ∧ n ≤ nearestDouble n + 512 ∧
      (2 ^ 53 ≤ n → 2 ^ 53 ≤ nearestDouble n) := by
  obtain ⟨h1, h2⟩ := excessBits_spec 11 n (by omega)
  rcases h2 with h0 | h2
  · have hlt : n < 2 ^ 53 := by simpa [h0] using h1
    rw [nearestDouble_eq_self hlt]
    omega
  · have hpos : 0 < 2 ^ excessBits 11 n := Nat.pos_pow_of_pos _ (by omega)
    have hdm := Nat.div_add_mod n (2 ^ excessBits 11 n)
    have hmod := Nat.mod_lt n hpos
    have hmul : 2 ^ 52 * 2 ^ excessBits 11 n ≤ 2 ^ excessBits 11 n * (n / 2 ^ excessBits 11 n) := by
      rw [mul_comm]
      exact Nat.mul_le_mul_left _ h2
    have hle : 2 ^ excessBits 11 n ≤ 1024 := by
      by_contra hgt
      have he : 11 ≤ excessBits 11 n := by
        by_contra hlt
        exact hgt (Nat.pow_le_pow_right (by omega) (by omega : excessBits 11 n ≤ 10))
      have hp : 2 ^ 11 ≤ 2 ^ excessBits 11 n := Nat.pow_le_pow_right (by omega) he
      have : 2 ^ 52 * 2 ^ 11 ≤ 2 ^ 52 * 2 ^ excessBits 11 n := Nat.mul_le_mul_left _ hp
      omega
    have hbig : 2 ≤ 2 ^ excessBits 11 n → 2 ^ 53 ≤ 2 ^ 52 * 2 ^ excessBits 11 n := by
      intro h2le
      have : 2 ^ 52 * 2 ≤ 2 ^ 52 * 2 ^ excessBits 11 n := Nat.mul_le_mul_left _ h2le
      omega
    have hq2 := Nat.mod_two_eq_zero_or_one (n / 2 ^ excessBits 11 n)
    simp only [nearestDouble]
    generalize 2 ^ excessBits 11 n = P at *
    generalize hq : n / P = q at *
    generalize n % P = r at *
    have e1 : (q + 1) * P = P * q + P := by ring
    have e2 : q * P = P * q := by ring
    have e3 : (q + q % 2) * P = P * q + q % 2 * P := by ring
    rw [e1, e2, e3]
    split_ifs with c1 c2
    · omega
    · omega
    · rcases hq2 with hq0 | hq1
      · rw [hq0]
        omega
      · rw [hq1]
        omega

/-- The list `units` has five labels, so the loop has four turns at most. -/
theorem units_length : units.length - 1 = 4 := rfl

/-- A turn of the loop on a value below 1024 ends the loop. -/
theorem scaleLoop_stop (fuel d s i : Nat) (h : d < 1024 * 2 ^ s) :
    scaleLoop fuel ⟨false, d, s⟩ i = (⟨false, d, s⟩, i) := by
  cases fuel with
  | zero => rfl
  | succ fuel =>
    have hge : Double.ge1024 ⟨false, d, s⟩ = false := by
      simp only [Double.ge1024, Bool.not_false, Bool.true_and, decide_eq_false_iff_not]
      omega
    rw [scaleLoop, hge]
    rfl

/-- A turn of the loop on a value of at least 1024, before the last unit, divides the
value and moves on to the next unit. -/
theorem scaleLoop_turn (fuel d s i : Nat) (h : 1024 * 2 ^ s ≤ d) (hi : i < 4) :
    scaleLoop (fuel + 1) ⟨false, d, s⟩ i = scaleLoop fuel ⟨false, d, s + 10⟩ (i + 1) := by
  have hge : Double.ge1024 ⟨false, d, s⟩ = true := by
    simp only [Double.ge1024, Bool.not_false, Bool.true_and, decide_eq_true_eq]
    exact h
  have hlt : decide (i < units.length - 1) = true := by
    rw [units_length]
    exact decide_eq_true hi
  rw [scaleLoop, hge, hlt]
  rfl

/-- The `while` loop on a non-negative value `d`: it stops at the first unit in which the
value is below 1024, and at TB at the latest. -/
theorem scaleLoop_eq (d : Nat) :
    scaleLoop (units.length - 1) ⟨false, d, 0⟩ 0 =
      if d < 1024 then (⟨false, d, 0⟩, 0)
      else if d < 1024 ^ 2 then (⟨false, d, 10⟩, 1)
      else if d < 1024 ^ 3 then (⟨false, d, 20⟩, 2)
      else if d < 1024 ^ 4 then (⟨false, d, 30⟩, 3)
      else (⟨false, d, 40⟩, 4) := by
  rw [units_length]
  have p0 : (1024 : Nat) * 2 ^ 0 = 1024 := by norm_num
  have p1 : (1024 : Nat) * 2 ^ (0 + 10) = 1024 ^ 2 := by norm_num
  have p2 : (1024 : Nat) * 2 ^ (0 + 10 + 10) = 1024 ^ 3 := by norm_num
  have p3 : (1024 : Nat) * 2 ^ (0 + 10 + 10 + 10) = 1024 ^ 4 := by norm_num
  by_cases h0 : d < 1024
  · rw [if_pos h0]
    exact scaleLoop_stop 4 d 0 0 (by rw [p0]; exact h0)
  rw [if_neg h0, scaleLoop_turn 3 d 0 0 (by rw [p0]; omega) (by omega)]
  by_cases h1 : d < 1024 ^ 2
  · rw [if_pos h1]
    exact scaleLoop_stop 3 d (0 + 10) (0 + 1) (by rw [p1]; exact h1)
  rw [if_neg h1, scaleLoop_turn 2 d (0 + 10) (0 + 1) (by rw [p1]; omega) (by omega)]
  by_cases h2 : d < 1024 ^ 3
  · rw [if_pos h2]
    exact scaleLoop_stop 2 d (0 + 10 + 10) (0 + 1 + 1) (by rw [p2]; exact h2)
  rw [if_neg h2, scaleLoop_turn 1 d (0 + 10 + 10) (0 + 1 + 1) (by rw [p2]; omega) (by omega)]
  by_cases h3 : d < 1024 ^ 4
  · rw [if_pos h3]
    exact scaleLoop_stop 1 d (0 + 10 + 10 + 10) (0 + 1 + 1 + 1) (by rw [p3]; exact h3)
  rw [if_neg h3, scaleLoop_turn 0 d (0 + 10 + 10 + 10) (0 + 1 + 1 + 1) (by rw [p3]; omega)
    (by omega)]
  rfl

/-- The loop has stopped by its own condition when the fuel is used up: at the result
either the value is below 1024 or the last unit is reached. -/
theorem scaleLoop_exit_nonneg (d : Nat) :
    ((scaleLoop (units.length - 1) ⟨false, d, 0⟩ 0).1.ge1024 &&
      decide ((scaleLoop (units.length - 1) ⟨false, d, 0⟩ 0).2 < units.length - 1)) = false := by
  rw [scaleLoop_eq, units_length]
  have p0 : (1024 : Nat) * 2 ^ 0 = 1024 := by norm_num
  have p1 : (1024 : Nat) * 2 ^ 10 = 1024 ^ 2 := by norm_num
  have p2 : (1024 : Nat) * 2 ^ 20 = 1024 ^ 3 := by norm_num
  have p3 : (1024 : Nat) * 2 ^ 30 = 1024 ^ 4 := by norm_num
  split_ifs with h0 h1 h2 h3
  · simp only [Double.ge1024, p0, Bool.not_false, Bool.true_and, Bool.and_eq_false_imp,
      decide_eq_true_eq]
    omega
  · simp only [Double.ge1024, p1, Bool.not_false, Bool.true_and, Bool.and_eq_false_imp,
      decide_eq_true_eq]
    omega
  · simp only [Double.ge1024, p2, Bool.not_false, Bool.true_and, Bool.and_eq_false_imp,
      decide_eq_true_eq]
    omega
  · simp only [Double.ge1024, p3, Bool.not_false, Bool.true_and, Bool.and_eq_false_imp,
      decide_eq_true_eq]
    omega
  · simp

/-- The fuel of the loop is enough for every `qint64`: the pair that `humanReadableSize`
takes from `scaleLoop` fails the loop condition, so the `while` loop of the source has
ended there. -/
theorem scaleLoop_exit (size : Int) :
    ((scaleLoop (units.length - 1) (Double.ofInt64 size) 0).1.ge1024 &&
      decide ((scaleLoop (units.length - 1) (Double.ofInt64 size) 0).2 < units.length - 1)) =
        false := by
  by_cases hneg : size < 0
  · have hge : (Double.ofInt64 size).ge1024 = false := by
      simp [Double.ofInt64, Double.ge1024, hneg]
    have hloop : scaleLoop (units.length - 1) (Double.ofInt64 size) 0 =
        (Double.ofInt64 size, 0) := by
      rw [units_length, scaleLoop, hge]
      rfl
    rw [hloop]
    simp [hge]
  · have hof : Double.ofInt64 size = ⟨false, nearestDouble size.natAbs, 0⟩ := by
      simp [Double.ofInt64, hneg]
    rw [hof]
    exact scaleLoop_exit_nonneg _

/-- The count of hundredths printed for `d / 2^s` is within half a hundredth of it. -/
theorem hundredths_near (d s : Nat) :
    2 * (2 ^ s * Double.hundredths ⟨false, d, s⟩) ≤ 200 * d + 2 ^ s ∧
      200 * d < 2 * (2 ^ s * Double.hundredths ⟨false, d, s⟩) + 2 ^ s := by
  have hpos : 0 < 2 * 2 ^ s := by positivity
  have hdm := Nat.div_add_mod (200 * d + 2 ^ s) (2 * 2 ^ s)
  have hmod := Nat.mod_lt (200 * d + 2 ^ s) hpos
  have e : 2 * (2 ^ s * ((200 * d + 2 ^ s) / (2 * 2 ^ s))) =
      2 * 2 ^ s * ((200 * d + 2 ^ s) / (2 * 2 ^ s)) := by ring
  simp only [Double.hundredths]
  rw [e]
  omega

/-- The text of a non-negative size, with the loop result put in. -/
theorem humanReadableSize_natCast (n : Nat) :
    humanReadableSize (n : Int) =
      fixedTwoDecimals (scaleLoop (units.length - 1) ⟨false, nearestDouble n, 0⟩ 0).1.hundredths
        ++ " " ++ units.getD (scaleLoop (units.length - 1) ⟨false, nearestDouble n, 0⟩ 0).2 "" ∧
    (scaleLoop (units.length - 1) ⟨false, nearestDouble n, 0⟩ 0).1.negative = false := by
  have hof : Double.ofInt64 (n : Int) = ⟨false, nearestDouble n, 0⟩ := by
    simp [Double.ofInt64]
  have hneg : (scaleLoop (units.length - 1) ⟨false, nearestDouble n, 0⟩ 0).1.negative = false := by
    rw [scaleLoop_eq]
    split_ifs <;> rfl
  refine ⟨?_, hneg⟩
  simp only [humanReadableSize, hof, numberFixed2, hneg]
  simp

/-- The unit and the digits of the size text, for every size a `qint64` can hold from 0 on:
the unit is the largest of B, KB, MB, GB, TB in which the size is at least 1, and the number
is the size as a `double`, divided down to that unit, to the nearest hundredth. -/
theorem humanReadableSize_unit_digits (n : Nat) (hn : n < 2 ^ 63) :
    ∃ k h : Nat, k ≤ 4 ∧ (k = 0 ∨ 1024 ^ k ≤ n) ∧ (k = 4 ∨ n < 1024 ^ (k + 1)) ∧
      2 * (1024 ^ k * h) ≤ 200 * nearestDouble n + 1024 ^ k ∧
      200 * nearestDouble n < 2 * (1024 ^ k * h) + 1024 ^ k ∧
      humanReadableSize (n : Int) =
        Nat.repr (h / 100) ++ "." ++ Nat.repr (h % 100 / 10) ++ Nat.repr (h % 10) ++ " " ++
          ["B", "KB", "MB", "GB", "TB"].getD k "" := by
  obtain ⟨htext, -⟩ := humanReadableSize_natCast n
  obtain ⟨hup, hdown, hbig⟩ := nearestDouble_near hn
  have hsmall : n < 2 ^ 53 → nearestDouble n = n := nearestDouble_eq_self
  have q1 : (2 : Nat) ^ 10 = 1024 ^ 1 := by norm_num
  have q2 : (2 : Nat) ^ 20 = 1024 ^ 2 := by norm_num
  have q3 : (2 : Nat) ^ 30 = 1024 ^ 3 := by norm_num
  have q4 : (2 : Nat) ^ 40 = 1024 ^ 4 := by norm_num
  have q0 : (2 : Nat) ^ 0 = 1024 ^ 0 := by norm_num
  have hd : n < 2 ^ 53 ∨ (2 ^ 53 ≤ n ∧ 2 ^ 53 ≤ nearestDouble n) := by
    by_cases hlt : n < 2 ^ 53
    · exact Or.inl hlt
    · exact Or.inr ⟨by omega, hbig (by omega)⟩
  rw [scaleLoop_eq] at htext
  split_ifs at htext with h0 h1 h2 h3
  · have hnear := hundredths_near (nearestDouble n) 0
    rw [q0] at hnear
    refine ⟨0, _, by omega, Or.inl rfl, Or.inr ?_, hnear.1, hnear.2, htext⟩
    rcases hd with hlt | ⟨-, hge⟩
    · rw [hsmall hlt] at h0
      omega
    · omega
  · have hnear := hundredths_near (nearestDouble n) 10
    rw [q1] at hnear
    refine ⟨1, _, by omega, Or.inr ?_, Or.inr ?_, hnear.1, hnear.2, htext⟩
    · rcases hd with hlt | ⟨hge, -⟩
      · rw [hsmall hlt] at h0
        omega
      · omega
    · rcases hd with hlt | ⟨-, hge⟩
      · rw [hsmall hlt] at h1
        omega
      · omega
  · have hnear := hundredths_near (nearestDouble n) 20
    rw [q2] at hnear
    refine ⟨2, _, by omega, Or.inr ?_, Or.inr ?_, hnear.1, hnear.2, htext⟩
    · rcases hd with hlt | ⟨hge, -⟩
      · rw [hsmall hlt] at h1
        omega
      · omega
    · rcases hd with hlt | ⟨-, hge⟩
      · rw [hsmall hlt] at h2
        omega
      · omega
  · have hnear := hundredths_near (nearestDouble n) 30
    rw [q3] at hnear
    refine ⟨3, _, by omega, Or.inr ?_, Or.inr ?_, hnear.1, hnear.2, htext⟩
    · rcases hd with hlt | ⟨hge, -⟩
      · rw [hsmall hlt] at h2
        omega
      · omega
    · rcases hd with hlt | ⟨-, hge⟩
      · rw [hsmall hlt] at h3
        omega
      · omega
  · have hnear := hundredths_near (nearestDouble n) 40
    rw [q4] at hnear
    refine ⟨4, _, le_refl 4, Or.inr ?_, Or.inl rfl, hnear.1, hnear.2, htext⟩
    rcases hd with hlt | ⟨hge, -⟩
    · rw [hsmall hlt] at h3
      omega
    · omega

/-- Claim C3, as the code has it. For every byte count `n` from 0 up to the largest
`qint64`, the text is a number with exactly two decimal digits, one space and the `k`-th
label of B, KB, MB, GB, TB, where `k` is the largest index with `n ≥ 1024^k` (0 below 1024,
4 from `1024^4` on), and the number is `d / 1024^k` to the nearest hundredth, `d` being
`n` converted to `double`: `d = n` below `2^53`, and `d` within 512 of `n` above. The five
sample texts are as the claim gives them. -/
theorem humanReadableSize_spec :
    (∀ n : Nat, n < 2 ^ 63 →
      ∃ k h : Nat, k ≤ 4 ∧ (k = 0 ∨ 1024 ^ k ≤ n) ∧ (k = 4 ∨ n < 1024 ^ (k + 1)) ∧
        2 * (1024 ^ k * h) ≤ 200 * nearestDouble n + 1024 ^ k ∧
        200 * nearestDouble n < 2 * (1024 ^ k * h) + 1024 ^ k ∧
        humanReadableSize (n : Int) =
          Nat.repr (h / 100) ++ "." ++ Nat.repr (h % 100 / 10) ++ Nat.repr (h % 10) ++ " " ++
            ["B", "KB", "MB", "GB", "TB"].getD k "") ∧
    (∀ n : Nat, n < 2 ^ 53 → nearestDouble n = n) ∧
    (∀ n : Nat, n < 2 ^ 63 → nearestDouble n ≤ n + 512 ∧ n ≤ nearestDouble n + 512) ∧
    humanReadableSize 0 = "0.00 B" ∧
    humanReadableSize 512 = "512.00 B" ∧
    humanReadableSize 1024 = "1.00 KB" ∧
    humanReadableSize 1536 = "1.50 KB" ∧
    humanReadableSize (5 * 1024 ^ 4) = "5.00 TB" :=
  ⟨humanReadableSize_unit_digits, fun _ h => nearestDouble_eq_self h,
   fun _ h => ⟨(nearestDouble_near h).1, (nearestDouble_near h).2.1⟩,
   by decide, by decide, by decide, by decide, by decide⟩

/-- Instance of claim C3 at 1536 bytes, a size below `2^53`: the text is "1.50 KB", the
unit index 1 and the count of hundredths 150. -/
theorem humanReadableSize_spec_witness :
    humanReadableSize 1536 = "1.50 KB" ∧ nearestDouble 1536 = 1536 ∧
    ∃ k h : Nat, k ≤ 4 ∧ (k = 0 ∨ 1024 ^ k ≤ 1536) ∧ (k = 4 ∨ 1536 < 1024 ^ (k + 1)) ∧
      2 * (1024 ^ k * h) ≤ 200 * nearestDouble 1536 + 1024 ^ k ∧
      200 * nearestDouble 1536 < 2 * (1024 ^ k * h) + 1024 ^ k ∧
      humanReadableSize ((1536 : Nat) : Int) =
        Nat.repr (h / 100) ++ "." ++ Nat.repr (h % 100 / 10) ++ Nat.repr (h % 10) ++ " " ++
          ["B", "KB", "MB", "GB", "TB"].getD k "" :=
  ⟨by decide, humanReadableSize_spec.2.1 1536 (by decide),
   humanReadableSize_spec.1 1536 (by decide)⟩

/-- Against claim C3 as stated: at 9007259727880519 bytes, a size above `2^53`, the
conversion to `double` moves the size up by one byte, across a rounding boundary. The text
is "8192.06 TB", and 8192.06 lies more than half a hundredth above the size divided by
`1024^4`, which is just below 8192.055. -/
theorem humanReadableSize_above_2_pow_53 :
    humanReadableSize 9007259727880519 = "8192.06 TB" ∧
    nearestDouble 9007259727880519 = 9007259727880520 ∧
    200 * 9007259727880519 + 1024 ^ 4 < 2 * (1024 ^ 4 * 819206) := by
  refine ⟨by decide, by decide, by decide⟩

/-! ## Properties of the sized file-system model -/

/-- Claim C9. For every parent index the model reports the column count of the
underlying provider plus exactly 1. -/
theorem columnCount_eq_base_succ (base : Provider) (parent : Option FileIndex) :
    columnCount base parent = base.columnCount parent + 1 := rfl

/-- With the display role, the cell of column 1 holds the size text: of `fileInfo.size()`
for a file, of `calculateFolderSize` for a folder. -/
theorem data_column_one (base : Provider) (e : Entry) :
    data base ⟨e, 1⟩ DisplayRole =
      .text (humanReadableSize (if e.isDir then calculateFolderSize e else (e.size : Int))) := by
  cases he : e.isDir <;> simp [data, he]

/-- Outside column 1, and in column 1 under a role other than the display role, `data` is
the value of the underlying provider. -/
theorem data_elsewhere (base : Provider) (index : FileIndex) (role : Role)
    (h : index.column ≠ 1 ∨ role ≠ DisplayRole) :
    data base index role = base.data index role := by
  have hc : ¬(role = DisplayRole ∧ index.column = 1) := by
    rintro ⟨hr, hcol⟩
    rcases h with h | h
    · exact h hcol
    · exact h hr
  simp only [data, if_neg hc]

set_option maxRecDepth 4096 in
/-- Claim C4, at the failing input. Over a provider with four native columns the model
reports five columns, the added one being number 4. With the display role the cell of the
added column of folder `A` (file `f1` of 100 bytes, subfolder `B` with file `f2` of 924
bytes) is the provider's, which has no value there; the size text "1.00 KB" of `A`, and the
size text of every file and folder, is in column 1, the native size column of the
provider. -/
theorem data_size_text_not_in_added_column :
    columnCount sampleProvider none = 4 + 1 ∧
    data sampleProvider ⟨scenarioA, 4⟩ DisplayRole = .invalid ∧
    data sampleProvider ⟨scenarioA, 4⟩ DisplayRole ≠
      .text (humanReadableSize (calculateFolderSize scenarioA)) ∧
    data sampleProvider ⟨scenarioA, 1⟩ DisplayRole = .text "1.00 KB" ∧
    (∀ (base : Provider) (n : String) (h : Bool) (sz : Nat),
      data base ⟨.file n h sz, 1⟩ DisplayRole = .text (humanReadableSize (sz : Int))) ∧
    (∀ (base : Provider) (n : String) (h r : Bool) (own : Nat) (es : List Entry),
      data base ⟨.dir n h r own es, 1⟩ DisplayRole =
        .text (humanReadableSize (calculateFolderSize (.dir n h r own es)))) ∧
    (∀ (base : Provider) (e : Entry) (c : Nat), c ≠ 1 →
      data base ⟨e, c⟩ DisplayRole = base.data ⟨e, c⟩ DisplayRole) := by
  refine ⟨by decide, by decide, by decide, by decide, fun base n h sz => ?_,
    fun base n h r own es => ?_, fun base e c hc => data_elsewhere base ⟨e, c⟩ _ (Or.inl hc)⟩
  · simpa [Entry.isDir, Entry.size] using data_column_one base (.file n h sz)
  · simpa [Entry.isDir] using data_column_one base (.dir n h r own es)

/-- Claim C5, at the failing input. Over a provider with four native columns the added
column is number 4; with the display role and the horizontal orientation its header is the
provider's, which has none, and not a text for "Size". The text the model supplies,
"Размер", is the header of section 1, where the provider says "Size"; every other section
has the provider's header. -/
theorem headerData_label_not_on_added_column :
    columnCount sampleProvider none = 4 + 1 ∧
    headerData sampleProvider 4 Orientation.Horizontal DisplayRole = .invalid ∧
    headerData sampleProvider 1 Orientation.Horizontal DisplayRole = .text "Размер" ∧
    sampleProvider.headerData 1 Orientation.Horizontal DisplayRole = .text "Size" ∧
    (∀ (base : Provider) (c : Nat),
      headerData base c Orientation.Horizontal DisplayRole =
        if c = 1 then .text "Размер"
        else base.headerData c Orientation.Horizontal DisplayRole) := by
  refine ⟨by decide, by decide, by decide, by decide, fun base c => ?_⟩
  simp [headerData]

set_option maxRecDepth 4096 in
/-- Claim C6, at the failing input. Column 1 is a native column of the provider, its size
column, and not the added column 4; with the display role the provider's cell there is,
for folder `A`, the empty text, and the model returns "1.00 KB" in its place. Every other
column, and column 1 under every other role, has the provider's value unchanged. -/
theorem data_native_size_column_replaced :
    (1 : Nat) < sampleProvider.columnCount none ∧
    sampleProvider.data ⟨scenarioA, 1⟩ DisplayRole = .text "" ∧
    data sampleProvider ⟨scenarioA, 1⟩ DisplayRole = .text "1.00 KB" ∧
    data sampleProvider ⟨scenarioA, 1⟩ DisplayRole ≠
      sampleProvider.data ⟨scenarioA, 1⟩ DisplayRole ∧
    (∀ (base : Provider) (index : FileIndex) (role : Role),
      index.column ≠ 1 ∨ role ≠ DisplayRole → data base index role = base.data index role) := by
  refine ⟨by decide, by decide, by decide, by decide, data_elsewhere⟩

end DirView
